import Mathlib

/-!
Verification of the heuristic meeting-transcript extractor in
`meeting_copilot/agent.py`.

Python strings are modelled as `List Char` (`PyStr`).  The character
predicates `str.isupper`, `str.isalpha`, `str.lower` and the whitespace
set of `str.strip` / `str.split` are modelled at their ASCII behaviour
(all inputs appearing in the spec and in the repository's tests are
ASCII).  Fallible operations of the source (the `potential_owner[0]`
index) are additionally modelled by `Option`-returning variants that
return `none` exactly where Python would raise `IndexError`.
-/

abbrev PyStr := List Char

/-- ASCII whitespace, as recognised by Python's `str.strip()` / `str.split()`. -/
def pyIsSpace (c : Char) : Bool :=
  c == ' ' || c == '\t' || c == '\n' || c == '\r' || c == '\x0b' || c == '\x0c'

/-- Python `str.lower()` (ASCII model): `Char.toLower` maps A–Z to a–z. -/
def pyLower (s : PyStr) : PyStr := s.map Char.toLower

/-- Python `str.strip()` with no argument: drop leading and trailing whitespace. -/
def pyStripWs (s : PyStr) : PyStr :=
  ((s.dropWhile pyIsSpace).reverse.dropWhile pyIsSpace).reverse

/-- Python `str.strip(cs)`: drop leading and trailing characters drawn from `cs`. -/
def pyStripChars (cs : PyStr) (s : PyStr) : PyStr :=
  ((s.dropWhile (fun c => decide (c ∈ cs))).reverse.dropWhile (fun c => decide (c ∈ cs))).reverse

/-- Python `str.startswith(pre)`. -/
def pyStartsWith (pre s : PyStr) : Bool := decide (s.take pre.length = pre)

/-- Python `needle in hay` substring test. -/
def isSubstr (needle hay : PyStr) : Bool :=
  (List.range (hay.length + 1)).any (fun i => pyStartsWith needle (hay.drop i))

/-- Python `transcript.split('\n')`: split on every newline; `""` gives `[""]`. -/
def splitNl : PyStr → List PyStr
  | [] => [[]]
  | c :: cs =>
    if c = '\n' then [] :: splitNl cs
    else
      match splitNl cs with
      | [] => [[c]]
      | t :: ts => (c :: t) :: ts

/-- Python `line.split()` with no argument: maximal runs of non-whitespace
characters; runs of whitespace separate tokens and produce no empty tokens. -/
def pySplitWs : PyStr → List PyStr
  | [] => []
  | c :: cs =>
    if pyIsSpace c then pySplitWs cs
    else
      match cs with
      | [] => [[c]]
      | d :: _ =>
        if pyIsSpace d then [c] :: pySplitWs cs
        else
          match pySplitWs cs with
          | [] => [[c]]
          | t :: ts => (c :: t) :: ts

/-- The `common_non_names` stop-word set of `summarise_transcript`
(`agent.py` lines 61–72), as a list of lowercase strings. -/
def stopWords : List PyStr :=
  (["we", "i", "you", "they", "it", "this", "that", "these", "those",
    "team", "system", "service", "project", "company", "organization",
    "department", "group", "meeting", "session", "discussion",
    "process", "method", "approach", "strategy", "plan",
    "implementation", "development", "testing", "deployment",
    "infrastructure", "architecture", "design", "code", "database",
    "api", "interface", "framework", "library", "module",
    "function", "class", "object", "variable", "parameter",
    "security", "authentication", "authorization", "encryption",
    "performance", "scalability", "reliability", "monitoring"].map String.toList)

/-- The punctuation argument of `words[i-1].strip('.,!?;:')` (`agent.py` line 55). -/
def puncts : PyStr := ".,!?;:".toList

/-- The trigger word `'will'`. -/
def willStr : PyStr := "will".toList

def decTag : PyStr := "decision:".toList

def actTag : PyStr := "action:".toList

def riskTag : PyStr := "risk:".toList

/-- The owner acceptance check of `agent.py` lines 74–77:
length between 2 and 20, first character uppercase, lowercase form not a
stop word, all characters alphabetic or apostrophe or hyphen.  Python's
`and` short-circuits, so `potential_owner[0]` is only read after the
length bound holds; here the total function reads `head?`. -/
def isLikelyPersonName (po : PyStr) : Bool :=
  decide (2 ≤ po.length ∧ po.length ≤ 20) &&
  (match po.head? with
   | some c => c.isUpper
   | none => false) &&
  !(decide (pyLower po ∈ stopWords)) &&
  po.all (fun c => c.isAlpha || c == '\'' || c == '-')

/-- Checked variant of `isLikelyPersonName`: returns `none` exactly where
Python's `potential_owner[0]` would raise `IndexError`, i.e. when the
candidate is empty yet indexed.  Because the length bound `2 <= len(...)`
is evaluated first, the index is only reached on a nonempty candidate. -/
def isLikelyPersonNameChecked (po : PyStr) : Option Bool :=
  if 2 ≤ po.length ∧ po.length ≤ 20 then
    match po.head? with
    | none => none
    | some c =>
      some (c.isUpper &&
            !(decide (pyLower po ∈ stopWords)) &&
            po.all (fun c => c.isAlpha || c == '\'' || c == '-'))
  else
    some false

/-- The inner owner loop of `agent.py` lines 52–78.  Python iterates
`for i, word in enumerate(words)` and, when `word.lower() == 'will'` and
`i > 0`, filters `words[i-1].strip('.,!?;:')`; equivalently it scans
adjacent pairs `(words[i-1], words[i])`, which is the recursion here. -/
def ownerScan : List PyStr → List PyStr
  | prev :: w :: rest =>
    (if pyLower w = willStr then
       (if isLikelyPersonName (pyStripChars puncts prev) then
          [pyStripChars puncts prev]
        else [])
     else []) ++ ownerScan (w :: rest)
  | _ => []

/-- Checked variant of `ownerScan`, propagating the possible
`IndexError` of the acceptance check. -/
def ownerScanChecked : List PyStr → Option (List PyStr)
  | prev :: w :: rest =>
    if pyLower w = willStr then
      match isLikelyPersonNameChecked (pyStripChars puncts prev) with
      | none => none
      | some b =>
        match ownerScanChecked (w :: rest) with
        | none => none
        | some tl =>
          some ((if b then [pyStripChars puncts prev] else []) ++ tl)
    else ownerScanChecked (w :: rest)
  | _ => some []

/-- The `MeetingSummary` dataclass of `agent.py` lines 22–28. -/
structure MeetingSummary where
  summary : PyStr
  decisions : List PyStr
  action_items : List PyStr
  owners : List PyStr
  risks : List PyStr
deriving DecidableEq

/-- The fixed summary string assigned at `agent.py` line 34. -/
def fixedSummary : PyStr := "Overall summary of the meeting based on transcript.".toList

def initialSummary : MeetingSummary :=
  { summary := fixedSummary, decisions := [], action_items := [], owners := [], risks := [] }

/-- One iteration of the `for line in lines` loop of `summarise_transcript`
(`agent.py` lines 41–78): strip the line, run the `decision:`/`action:`/
`risk:` `elif` chain, then — independently — the owner extraction guarded
by `'will' in line.lower()`.  The per-candidate owner appends of the inner
loop are modelled as one batch append to the `owners` field. -/
def stepLine (acc : MeetingSummary) (rawLine : PyStr) : MeetingSummary :=
  let line := pyStripWs rawLine
  let acc1 :=
    if pyStartsWith decTag (pyLower line) then
      { acc with decisions := acc.decisions ++ [pyStripWs (line.drop 9)] }
    else if pyStartsWith actTag (pyLower line) then
      { acc with action_items := acc.action_items ++ [pyStripWs (line.drop 7)] }
    else if pyStartsWith riskTag (pyLower line) then
      { acc with risks := acc.risks ++ [pyStripWs (line.drop 5)] }
    else acc
  if isSubstr willStr (pyLower line) then
    { acc1 with owners := acc1.owners ++ ownerScan (pySplitWs line) }
  else acc1

/-- `summarise_transcript` (`agent.py` lines 30–86). -/
def summarise_transcript (transcript : PyStr) : MeetingSummary :=
  (splitNl transcript).foldl stepLine initialSummary

/-- Checked variant of `stepLine`, propagating a possible `IndexError`
from the owner acceptance check. -/
def stepLineChecked (acc : MeetingSummary) (rawLine : PyStr) : Option MeetingSummary :=
  let line := pyStripWs rawLine
  let acc1 :=
    if pyStartsWith decTag (pyLower line) then
      { acc with decisions := acc.decisions ++ [pyStripWs (line.drop 9)] }
    else if pyStartsWith actTag (pyLower line) then
      { acc with action_items := acc.action_items ++ [pyStripWs (line.drop 7)] }
    else if pyStartsWith riskTag (pyLower line) then
      { acc with risks := acc.risks ++ [pyStripWs (line.drop 5)] }
    else acc
  if isSubstr willStr (pyLower line) then
    match ownerScanChecked (pySplitWs line) with
    | none => none
    | some os => some { acc1 with owners := acc1.owners ++ os }
  else some acc1

def runLinesChecked : MeetingSummary → List PyStr → Option MeetingSummary
  | acc, [] => some acc
  | acc, l :: ls =>
    match stepLineChecked acc l with
    | none => none
    | some acc1 => runLinesChecked acc1 ls

/-- Checked variant of `summarise_transcript`: `none` would signal an
uncaught Python exception. -/
def summariseTranscriptChecked (transcript : PyStr) : Option MeetingSummary :=
  runLinesChecked initialSummary (splitNl transcript)

/-- Per-line contribution to `decisions` (the first branch of the `elif`
chain at `agent.py` lines 43–44). -/
def lineDec (rawLine : PyStr) : List PyStr :=
  let line := pyStripWs rawLine
  if pyStartsWith decTag (pyLower line) then [pyStripWs (line.drop 9)] else []

/-- Per-line contribution to `action_items` (`agent.py` lines 45–46). -/
def lineAct (rawLine : PyStr) : List PyStr :=
  let line := pyStripWs rawLine
  if pyStartsWith decTag (pyLower line) then []
  else if pyStartsWith actTag (pyLower line) then [pyStripWs (line.drop 7)] else []

/-- Per-line contribution to `risks` (`agent.py` lines 47–48). -/
def lineRisk (rawLine : PyStr) : List PyStr :=
  let line := pyStripWs rawLine
  if pyStartsWith decTag (pyLower line) then []
  else if pyStartsWith actTag (pyLower line) then []
  else if pyStartsWith riskTag (pyLower line) then [pyStripWs (line.drop 5)] else []

/-- Per-line contribution to `owners` (`agent.py` lines 50–78). -/
def lineOwners (rawLine : PyStr) : List PyStr :=
  let line := pyStripWs rawLine
  if isSubstr willStr (pyLower line) then ownerScan (pySplitWs line) else []

theorem stepLine_fields (acc : MeetingSummary) (rawLine : PyStr) :
    stepLine acc rawLine =
      { summary := acc.summary,
        decisions := acc.decisions ++ lineDec rawLine,
        action_items := acc.action_items ++ lineAct rawLine,
        owners := acc.owners ++ lineOwners rawLine,
        risks := acc.risks ++ lineRisk rawLine } := by
  cases acc
  simp only [stepLine, lineDec, lineAct, lineRisk, lineOwners]
  split_ifs <;> simp

theorem foldl_stepLine_fields (ls : List PyStr) (acc : MeetingSummary) :
    ls.foldl stepLine acc =
      { summary := acc.summary,
        decisions := acc.decisions ++ ls.flatMap lineDec,
        action_items := acc.action_items ++ ls.flatMap lineAct,
        owners := acc.owners ++ ls.flatMap lineOwners,
        risks := acc.risks ++ ls.flatMap lineRisk } := by
  induction ls generalizing acc with
  | nil => simp
  | cons l ls ih =>
    simp only [List.foldl_cons, List.flatMap_cons]
    rw [ih, stepLine_fields]
    simp [List.append_assoc]

theorem summarise_transcript_fields (t : PyStr) :
    summarise_transcript t =
      { summary := fixedSummary,
        decisions := (splitNl t).flatMap lineDec,
        action_items := (splitNl t).flatMap lineAct,
        owners := (splitNl t).flatMap lineOwners,
        risks := (splitNl t).flatMap lineRisk } := by
  rw [summarise_transcript, foldl_stepLine_fields]
  rfl

theorem pyStartsWith_iff (pre s : PyStr) :
    pyStartsWith pre s = true ↔ ∃ r, s = pre ++ r := by
  constructor
  · intro h
    refine ⟨s.drop pre.length, ?_⟩
    have h' : s.take pre.length = pre := by
      simpa [pyStartsWith] using h
    conv_lhs => rw [← List.take_append_drop pre.length s]
    rw [h']
  · rintro ⟨r, rfl⟩
    simp [pyStartsWith, List.take_left]

theorem pyLower_append (a b : PyStr) : pyLower (a ++ b) = pyLower a ++ pyLower b := by
  simp [pyLower]

theorem pyLower_length (a : PyStr) : (pyLower a).length = a.length := by
  simp [pyLower]

/-- Case-insensitive tag matching bridge: the code's check
`line.lower().startswith(tag)` holds iff the line literally starts with
some string whose lowercasing is the tag. -/
theorem tag_match_iff (tag l : PyStr) :
    pyStartsWith tag (pyLower l) = true ↔ ∃ p r, l = p ++ r ∧ pyLower p = tag := by
  constructor
  · intro h
    obtain ⟨r, hr⟩ := (pyStartsWith_iff tag (pyLower l)).1 h
    refine ⟨l.take tag.length, l.drop tag.length, (List.take_append_drop ..).symm, ?_⟩
    have : pyLower (l.take tag.length) = (pyLower l).take tag.length := by
      simp [pyLower, List.map_take]
    rw [this, hr, List.take_append_eq_append_take]
    simp
  · rintro ⟨p, r, rfl, hp⟩
    refine (pyStartsWith_iff tag (pyLower (p ++ r))).2 ⟨pyLower r, ?_⟩
    rw [pyLower_append, hp]

theorem isSubstr_of_parts (n a b : PyStr) : isSubstr n (a ++ n ++ b) = true := by
  refine (List.any_eq_true).2 ⟨a.length, ?_, ?_⟩
  · refine List.mem_range.2 ?_
    simp only [List.length_append]
    omega
  · have h1 : (a ++ n ++ b).drop a.length = n ++ b := by
      rw [List.append_assoc, List.drop_left]
    rw [h1]
    simp [pyStartsWith, List.take_left]

theorem pySplitWs_cons_space (c : Char) (cs : PyStr) (hc : pyIsSpace c = true) :
    pySplitWs (c :: cs) = pySplitWs cs := by
  simp [pySplitWs, hc]

theorem pySplitWs_single (c : Char) (hc : pyIsSpace c = false) :
    pySplitWs [c] = [[c]] := by
  simp [pySplitWs, hc]

theorem pySplitWs_cc_space (c d : Char) (cs : PyStr)
    (hc : pyIsSpace c = false) (hd : pyIsSpace d = true) :
    pySplitWs (c :: d :: cs) = [c] :: pySplitWs (d :: cs) := by
  simp [pySplitWs, hc, hd]

theorem pySplitWs_cc_nonspace (c d : Char) (cs : PyStr) (t : PyStr) (ts : List PyStr)
    (hc : pyIsSpace c = false) (hd : pyIsSpace d = false)
    (h : pySplitWs (d :: cs) = t :: ts) :
    pySplitWs (c :: d :: cs) = (c :: t) :: ts := by
  conv_lhs => rw [pySplitWs]
  rw [if_neg (by simp [hc]), if_neg (by simp [hd])]
  show (match pySplitWs (d :: cs) with
        | [] => [[c]]
        | t :: ts => (c :: t) :: ts) = _
  rw [h]

/-- Head-token structure of `pySplitWs`: a string beginning with a
non-whitespace character splits into a head token extending that
character, and the head token is an initial segment of the string. -/
theorem pySplitWs_head (cs : PyStr) :
    ∀ c, pyIsSpace c = false →
      ∃ t ts r, pySplitWs (c :: cs) = (c :: t) :: ts ∧ cs = t ++ r := by
  induction cs with
  | nil =>
    intro c hc
    exact ⟨[], [], [], pySplitWs_single c hc, rfl⟩
  | cons d cs' ih =>
    intro c hc
    by_cases hd : pyIsSpace d = true
    · exact ⟨[], pySplitWs (d :: cs'), d :: cs', pySplitWs_cc_space c d cs' hc hd, rfl⟩
    · obtain ⟨t', ts', r', heq, hsplit⟩ := ih d (by simpa using hd)
      refine ⟨d :: t', ts', r', ?_, by simp [hsplit]⟩
      exact pySplitWs_cc_nonspace c d cs' (d :: t') ts' hc (by simpa using hd) heq

/-- Every token produced by `pySplitWs` occurs contiguously in the input. -/
theorem pySplitWs_token_parts (s : PyStr) :
    ∀ w ∈ pySplitWs s, ∃ l r, s = l ++ w ++ r := by
  induction s with
  | nil => intro w hw; simp [pySplitWs] at hw
  | cons c cs ih =>
    intro w hw
    by_cases hc : pyIsSpace c = true
    · rw [pySplitWs_cons_space c cs hc] at hw
      obtain ⟨l, r, rfl⟩ := ih w hw
      exact ⟨c :: l, r, rfl⟩
    · have hc' : pyIsSpace c = false := by simpa using hc
      cases cs with
      | nil =>
        rw [pySplitWs_single c hc'] at hw
        simp only [List.mem_singleton] at hw
        exact ⟨[], [], by simp [hw]⟩
      | cons d cs' =>
        by_cases hd : pyIsSpace d = true
        · rw [pySplitWs_cc_space c d cs' hc' hd, List.mem_cons] at hw
          rcases hw with rfl | hw
          · exact ⟨[], d :: cs', by simp⟩
          · obtain ⟨l, r, heq⟩ := ih w hw
            exact ⟨c :: l, r, by rw [heq]; rfl⟩
        · have hd' : pyIsSpace d = false := by simpa using hd
          obtain ⟨t', ts', r', heq, hsplit⟩ := pySplitWs_head cs' d hd'
          rw [pySplitWs_cc_nonspace c d cs' (d :: t') ts' hc' hd' heq, List.mem_cons] at hw
          rcases hw with rfl | hw
          · refine ⟨[], r', ?_⟩
            simp only [List.nil_append, List.cons_append]
            rw [hsplit]
          · have hmem : w ∈ pySplitWs (d :: cs') := by rw [heq]; exact List.mem_cons_of_mem _ hw
            obtain ⟨l, r, heq2⟩ := ih w hmem
            exact ⟨c :: l, r, by rw [heq2]; rfl⟩

/-- If some whitespace token of `l` lowercases to `"will"`, then the code's
substring guard `'will' in line.lower()` is true for `l`. -/
theorem guard_of_will_token (l w : PyStr) (hw : w ∈ pySplitWs l)
    (hlow : pyLower w = willStr) : isSubstr willStr (pyLower l) = true := by
  obtain ⟨a, r, rfl⟩ := pySplitWs_token_parts l w hw
  rw [pyLower_append, pyLower_append, hlow]
  exact isSubstr_of_parts ..

/-- If no token of `ws` past the head lowercases to `"will"`, the owner
scan yields nothing. -/
theorem ownerScan_eq_nil (a : PyStr) (l : List PyStr)
    (h : ∀ v ∈ l, pyLower v ≠ willStr) : ownerScan (a :: l) = [] := by
  induction l generalizing a with
  | nil => rfl
  | cons b t ih =>
    have hb : pyLower b ≠ willStr := h b (List.mem_cons_self ..)
    show (if pyLower b = willStr then _ else []) ++ ownerScan (b :: t) = []
    rw [if_neg hb, List.nil_append]
    exact ih b (fun v hv => h v (List.mem_cons_of_mem _ hv))

/-- The raw owner candidates of a token list: for every occurrence of a
token lowercasing to `"will"` that has a preceding token, the preceding
token stripped of `'.,!?;:'` at both ends, in occurrence order. -/
def willCandidates : List PyStr → List PyStr
  | prev :: w :: rest =>
    (if pyLower w = willStr then [pyStripChars puncts prev] else []) ++ willCandidates (w :: rest)
  | _ => []

theorem ownerScan_eq_filter (ws : List PyStr) :
    ownerScan ws = (willCandidates ws).filter isLikelyPersonName := by
  induction ws with
  | nil => rfl
  | cons a l ih =>
    cases l with
    | nil => rfl
    | cons b t =>
      show (if pyLower b = willStr then _ else []) ++ ownerScan (b :: t)
          = List.filter _ ((if pyLower b = willStr then [pyStripChars puncts a] else []) ++ willCandidates (b :: t))
      rw [List.filter_append, ih]
      by_cases hb : pyLower b = willStr
      · rw [if_pos hb, if_pos hb]
        by_cases hacc : isLikelyPersonName (pyStripChars puncts a) = true
        · simp [hacc]
        · simp [List.filter_cons, hacc]
      · rw [if_neg hb, if_neg hb]
        rfl

theorem willCandidates_eq_nil (a : PyStr) (l : List PyStr)
    (h : ∀ v ∈ l, pyLower v ≠ willStr) : willCandidates (a :: l) = [] := by
  induction l generalizing a with
  | nil => rfl
  | cons b t ih =>
    have hb : pyLower b ≠ willStr := h b (List.mem_cons_self ..)
    show (if pyLower b = willStr then _ else []) ++ willCandidates (b :: t) = []
    rw [if_neg hb, List.nil_append]
    exact ih b (fun v hv => h v (List.mem_cons_of_mem _ hv))

/-- The substring guard `'will' in line.lower()` never changes the owner
extraction: owners of a line are determined by its whitespace tokens alone. -/
theorem lineOwners_eq_ownerScan (rawLine : PyStr) :
    lineOwners rawLine = ownerScan (pySplitWs (pyStripWs rawLine)) := by
  unfold lineOwners
  by_cases hg : isSubstr willStr (pyLower (pyStripWs rawLine)) = true
  · rw [if_pos hg]
  · rw [if_neg hg]
    have hnowill : ∀ v ∈ pySplitWs (pyStripWs rawLine), pyLower v ≠ willStr := by
      intro v hv hlow
      exact hg (guard_of_will_token (pyStripWs rawLine) v hv hlow)
    cases hws : pySplitWs (pyStripWs rawLine) with
    | nil => rfl
    | cons a l =>
      refine (ownerScan_eq_nil a l ?_).symm
      intro v hv
      exact hnowill v (by rw [hws]; exact List.mem_cons_of_mem _ hv)

theorem isLikelyPersonNameChecked_eq (po : PyStr) :
    isLikelyPersonNameChecked po = some (isLikelyPersonName po) := by
  unfold isLikelyPersonNameChecked isLikelyPersonName
  by_cases hlen : 2 ≤ po.length ∧ po.length ≤ 20
  · rw [if_pos hlen]
    cases po with
    | nil => simp at hlen
    | cons c t =>
      simp only [List.length_cons] at hlen
      have h1 : decide (1 ≤ t.length) = true := decide_eq_true (by omega)
      have h2 : decide (t.length ≤ 19) = true := decide_eq_true (by omega)
      simp [h1, h2, Bool.and_assoc]
  · rw [if_neg hlen]
    simp [hlen]

theorem ownerScanChecked_eq (ws : List PyStr) :
    ownerScanChecked ws = some (ownerScan ws) := by
  induction ws with
  | nil => rfl
  | cons a l ih =>
    cases l with
    | nil => rfl
    | cons b t =>
      show (if pyLower b = willStr then _ else ownerScanChecked (b :: t)) = some _
      by_cases hb : pyLower b = willStr
      · rw [if_pos hb]
        rw [isLikelyPersonNameChecked_eq]
        show (match ownerScanChecked (b :: t) with
              | none => none
              | some tl => some ((if isLikelyPersonName (pyStripChars puncts a) then
                  [pyStripChars puncts a] else []) ++ tl)) = _
        rw [ih]
        show some _ = some ((if pyLower b = willStr then _ else []) ++ ownerScan (b :: t))
        rw [if_pos hb]
      · rw [if_neg hb, ih]
        show some _ = some ((if pyLower b = willStr then _ else []) ++ ownerScan (b :: t))
        rw [if_neg hb]
        rfl

theorem stepLineChecked_eq (acc : MeetingSummary) (rawLine : PyStr) :
    stepLineChecked acc rawLine = some (stepLine acc rawLine) := by
  unfold stepLineChecked stepLine
  by_cases hg : isSubstr willStr (pyLower (pyStripWs rawLine)) = true
  · simp [hg, ownerScanChecked_eq]
  · have hg' : isSubstr willStr (pyLower (pyStripWs rawLine)) = false := by simpa using hg
    simp [hg']

theorem runLinesChecked_eq (ls : List PyStr) (acc : MeetingSummary) :
    runLinesChecked acc ls = some (ls.foldl stepLine acc) := by
  induction ls generalizing acc with
  | nil => rfl
  | cons l ls ih =>
    show (match stepLineChecked acc l with
          | none => none
          | some acc1 => runLinesChecked acc1 ls) = _
    rw [stepLineChecked_eq]
    exact ih (stepLine acc l)

/-- The spec's acceptance rule for owner candidates, stated as a
proposition following the words of spec §4.2: length between 2 and 20
inclusive, first character an uppercase letter, lowercase form not a stop
word, every character a letter, apostrophe, or hyphen. -/
def specPersonName (po : PyStr) : Prop :=
  2 ≤ po.length ∧ po.length ≤ 20 ∧
  (∃ c t, po = c :: t ∧ c.isUpper = true) ∧
  pyLower po ∉ stopWords ∧
  (∀ c ∈ po, c.isAlpha = true ∨ c = '\'' ∨ c = '-')

/-- Modelled from the spec's words (§4.2): strip punctuation from the
trailing end only. -/
def specStripTrailing (cs : PyStr) (s : PyStr) : PyStr :=
  (s.reverse.dropWhile (fun c => decide (c ∈ cs))).reverse

/-- Modelled from the spec's words: strip punctuation from the leading
end only. -/
def specStripLeading (cs : PyStr) (s : PyStr) : PyStr :=
  s.dropWhile (fun c => decide (c ∈ cs))

/-- `get_decisions` (`agent.py` lines 103–110). -/
def get_decisions (transcript : PyStr) : PyStr :=
  let result := summarise_transcript transcript
  if !result.decisions.isEmpty then
    "Meeting Decisions:\n".toList ++
      List.intercalate ['\n'] (result.decisions.map (fun d => "• ".toList ++ d))
  else "No decisions were identified in this meeting.".toList

/-- `get_action_items` (`agent.py` lines 112–119). -/
def get_action_items (transcript : PyStr) : PyStr :=
  let result := summarise_transcript transcript
  if !result.action_items.isEmpty then
    "Action Items:\n".toList ++
      List.intercalate ['\n'] (result.action_items.map (fun it => "• ".toList ++ it))
  else "No action items were identified in this meeting.".toList

/-- `get_owners` (`agent.py` lines 121–128). -/
def get_owners (transcript : PyStr) : PyStr :=
  let result := summarise_transcript transcript
  if !result.owners.isEmpty then
    "Meeting Participants/Owners:\n".toList ++
      List.intercalate ['\n'] (result.owners.map (fun o => "• ".toList ++ o))
  else "No specific owners were identified in this meeting.".toList

/-- `get_risks` (`agent.py` lines 130–137). -/
def get_risks (transcript : PyStr) : PyStr :=
  let result := summarise_transcript transcript
  if !result.risks.isEmpty then
    "Identified Risks:\n".toList ++
      List.intercalate ['\n'] (result.risks.map (fun r => "• ".toList ++ r))
  else "No risks were identified in this meeting.".toList

/-- Rendering contract stated from the spec's words (§6): a nonempty
sequence is rendered as the header, a newline, then the items each
prefixed with a bullet and joined one per line; an empty sequence is
rendered as the fixed no-items sentence. -/
def renderView (header emptyMsg : PyStr) (items : List PyStr) : PyStr :=
  match items with
  | [] => emptyMsg
  | _ => header ++ ['\n'] ++ List.intercalate ['\n'] (items.map (fun it => "• ".toList ++ it))

/-- C2: on the four-line mixed-tag transcript, `summarise_transcript`
yields exactly the expected decision, action item and risk, and an owners
sequence containing "Mike" and "Sarah" but not "We". -/
theorem spec_c2_mixed_tag_scenario :
    (summarise_transcript ("Decision: We will use a managed database\nAction: Mike will configure backups\nRisk: Latency might exceed budget\nSarah will review the final design").toList).decisions
        = ["We will use a managed database".toList] ∧
    (summarise_transcript ("Decision: We will use a managed database\nAction: Mike will configure backups\nRisk: Latency might exceed budget\nSarah will review the final design").toList).action_items
        = ["Mike will configure backups".toList] ∧
    (summarise_transcript ("Decision: We will use a managed database\nAction: Mike will configure backups\nRisk: Latency might exceed budget\nSarah will review the final design").toList).risks
        = ["Latency might exceed budget".toList] ∧
    "Mike".toList ∈ (summarise_transcript ("Decision: We will use a managed database\nAction: Mike will configure backups\nRisk: Latency might exceed budget\nSarah will review the final design").toList).owners ∧
    "Sarah".toList ∈ (summarise_transcript ("Decision: We will use a managed database\nAction: Mike will configure backups\nRisk: Latency might exceed budget\nSarah will review the final design").toList).owners ∧
    "We".toList ∉ (summarise_transcript ("Decision: We will use a managed database\nAction: Mike will configure backups\nRisk: Latency might exceed budget\nSarah will review the final design").toList).owners := by
  decide

/-- C8: the `summary` field is the same fixed placeholder string for every
input transcript, and the empty-string input yields all four sequences
empty. -/
theorem spec_c8_fixed_summary_empty_input :
    (∀ t : PyStr, (summarise_transcript t).summary = fixedSummary) ∧
    summarise_transcript "".toList =
      { summary := fixedSummary, decisions := [], action_items := [],
        owners := [], risks := [] } := by
  constructor
  · intro t
    rw [summarise_transcript_fields]
  · decide

/-- C3: `summarise_transcript` is total: the checked model, which returns
`none` exactly where Python would raise (in particular the
`potential_owner[0]` index), always returns `some` of the total function's
result for every input string, and the acceptance check itself never
reaches the out-of-bounds index because the length bound is evaluated
before the first-character test. -/
theorem spec_c3_totality :
    (∀ t : PyStr, summariseTranscriptChecked t = some (summarise_transcript t)) ∧
    (∀ po : PyStr, isLikelyPersonNameChecked po = some (isLikelyPersonName po)) := by
  constructor
  · intro t
    exact runLinesChecked_eq (splitNl t) initialSummary
  · exact isLikelyPersonNameChecked_eq

/-- C4: a line contributes an entry to at most one of decisions, action
items and risks (the first matching prefix in the order decision, action,
risk wins, and each contribution is at most one entry), while the loop
step always extends the owners field by the line's owner extraction,
independently of which tag branch (if any) was taken. -/
theorem spec_c4_mutual_exclusion_and_independent_owners
    (acc : MeetingSummary) (rawLine : PyStr) :
    ((lineDec rawLine = [] ∨ lineAct rawLine = []) ∧
     (lineDec rawLine = [] ∨ lineRisk rawLine = []) ∧
     (lineAct rawLine = [] ∨ lineRisk rawLine = []) ∧
     (lineDec rawLine).length ≤ 1 ∧
     (lineAct rawLine).length ≤ 1 ∧
     (lineRisk rawLine).length ≤ 1) ∧
    stepLine acc rawLine =
      { summary := acc.summary,
        decisions := acc.decisions ++ lineDec rawLine,
        action_items := acc.action_items ++ lineAct rawLine,
        owners := acc.owners ++ lineOwners rawLine,
        risks := acc.risks ++ lineRisk rawLine } := by
  constructor
  · unfold lineDec lineAct lineRisk
    dsimp only
    split_ifs <;> simp_all
  · exact stepLine_fields acc rawLine

/-- C6: the trigger `"will"` is matched case-insensitively as a whole
whitespace token, not as a substring: the owner extraction of a line is
fully determined by its token scan (the substring guard changes nothing),
and a line none of whose tokens lowercases to `"will"` — for example one
containing only `"willing"` or `"willows"` — contributes no owner
candidate. -/
theorem spec_c6_token_boundary_matching (rawLine : PyStr) :
    lineOwners rawLine = ownerScan (pySplitWs (pyStripWs rawLine)) ∧
    ((∀ v ∈ pySplitWs (pyStripWs rawLine), pyLower v ≠ willStr) →
      lineOwners rawLine = []) := by
  refine ⟨lineOwners_eq_ownerScan rawLine, fun h => ?_⟩
  rw [lineOwners_eq_ownerScan rawLine]
  cases hws : pySplitWs (pyStripWs rawLine) with
  | nil => rfl
  | cons a l =>
    refine ownerScan_eq_nil a l ?_
    intro v hv
    exact h v (by rw [hws]; exact List.mem_cons_of_mem _ hv)

/-- Witness for C6 at a concrete input: "He is willing and the willows
sway" contains "will" as a substring (so the code's guard fires) but has
no standalone "will" token, and indeed yields no owner. -/
theorem spec_c6_token_boundary_matching_witness :
    (∀ v ∈ pySplitWs (pyStripWs "He is willing and the willows sway".toList),
        pyLower v ≠ willStr) ∧
    lineOwners "He is willing and the willows sway".toList = [] := by
  refine ⟨by decide, ?_⟩
  exact (spec_c6_token_boundary_matching _).2 (by decide)

/-- C9: each of the four derived views calls the core and renders the
corresponding sequence per the spec's rendering contract: a bulleted list
("• " before each item, one item per line, under the view's header) when
the sequence is nonempty, and the fixed "no X identified" sentence when
it is empty. -/
theorem spec_c9_derived_views (t : PyStr) :
    get_decisions t =
      renderView "Meeting Decisions:".toList
        "No decisions were identified in this meeting.".toList
        (summarise_transcript t).decisions ∧
    get_action_items t =
      renderView "Action Items:".toList
        "No action items were identified in this meeting.".toList
        (summarise_transcript t).action_items ∧
    get_owners t =
      renderView "Meeting Participants/Owners:".toList
        "No specific owners were identified in this meeting.".toList
        (summarise_transcript t).owners ∧
    get_risks t =
      renderView "Identified Risks:".toList
        "No risks were identified in this meeting.".toList
        (summarise_transcript t).risks := by
  refine ⟨?_, ?_, ?_, ?_⟩
  · unfold get_decisions renderView
    cases h : (summarise_transcript t).decisions <;> simp [h]
  · unfold get_action_items renderView
    cases h : (summarise_transcript t).action_items <;> simp [h]
  · unfold get_owners renderView
    cases h : (summarise_transcript t).owners <;> simp [h]
  · unfold get_risks renderView
    cases h : (summarise_transcript t).risks <;> simp [h]

/-- C1: owner extraction of a line appends exactly the accepted candidates,
verbatim and in occurrence order (duplicates kept), and the code's
acceptance boolean holds precisely when the spec's four conditions all
hold. -/
theorem spec_c1_owner_acceptance (rawLine : PyStr) :
    lineOwners rawLine =
      (willCandidates (pySplitWs (pyStripWs rawLine))).filter isLikelyPersonName ∧
    (∀ po : PyStr, isLikelyPersonName po = true ↔ specPersonName po) := by
  constructor
  · rw [lineOwners_eq_ownerScan, ownerScan_eq_filter]
  · intro po
    constructor
    · intro h
      cases po with
      | nil => simp [isLikelyPersonName] at h
      | cons c t =>
        simp only [isLikelyPersonName, List.head?_cons, Bool.and_eq_true, decide_eq_true_eq,
          Bool.not_eq_true', decide_eq_false_iff_not, List.all_eq_true] at h
        obtain ⟨⟨⟨hlen, hup⟩, hstop⟩, hall⟩ := h
        refine ⟨hlen.1, hlen.2, ⟨c, t, rfl, hup⟩, hstop, ?_⟩
        intro x hx
        have hx' := hall x hx
        simp only [Bool.or_eq_true, beq_iff_eq] at hx'
        tauto
    · rintro ⟨h1, h2, ⟨c, t, rfl, hup⟩, h4, h5⟩
      simp only [isLikelyPersonName, List.head?_cons, Bool.and_eq_true, decide_eq_true_eq,
        Bool.not_eq_true', decide_eq_false_iff_not, List.all_eq_true]
      refine ⟨⟨⟨⟨h1, h2⟩, hup⟩, h4⟩, ?_⟩
      intro x hx
      have hx' := h5 x hx
      simp only [Bool.or_eq_true, beq_iff_eq]
      tauto

theorem head_of_pyStartsWith (c : Char) (t s : PyStr)
    (h : pyStartsWith (c :: t) s = true) : s.head? = some c := by
  have h' : s.take (c :: t).length = c :: t := by simpa [pyStartsWith] using h
  cases s with
  | nil => simp at h'
  | cons a s' =>
    simp only [List.length_cons, List.take_succ_cons] at h'
    injection h' with h1 _
    simp [h1]

theorem head_of_parts (c : Char) (t p r l : PyStr)
    (hsplit : l = p ++ r) (hp : pyLower p = c :: t) : (pyLower l).head? = some c := by
  subst hsplit
  rw [pyLower_append, hp]
  rfl

/-- C7: tag matching is case-insensitive — a line (after whitespace
trimming) is recognised for a tag exactly when it literally starts with
some string whose lowercasing is that tag, for each of the three tags —
and on a match the trimmed remainder after the matched prefix is the
appended entry. -/
theorem spec_c7_tag_prefixes (line : PyStr) :
    ((∀ p r, pyStripWs line = p ++ r → pyLower p = decTag →
        lineDec line = [pyStripWs r]) ∧
     (lineDec line ≠ [] → ∃ p r, pyStripWs line = p ++ r ∧ pyLower p = decTag)) ∧
    ((∀ p r, pyStripWs line = p ++ r → pyLower p = actTag →
        lineAct line = [pyStripWs r]) ∧
     (lineAct line ≠ [] → ∃ p r, pyStripWs line = p ++ r ∧ pyLower p = actTag)) ∧
    ((∀ p r, pyStripWs line = p ++ r → pyLower p = riskTag →
        lineRisk line = [pyStripWs r]) ∧
     (lineRisk line ≠ [] → ∃ p r, pyStripWs line = p ++ r ∧ pyLower p = riskTag)) := by
  have hdecTag : decTag = 'd' :: "ecision:".toList := by decide
  have hactTag : actTag = 'a' :: "ction:".toList := by decide
  have hriskTag : riskTag = 'r' :: "isk:".toList := by decide
  have hdlen : ∀ p : PyStr, pyLower p = decTag → p.length = 9 := by
    intro p hp
    have := congrArg List.length hp
    simpa [pyLower_length] using this
  have halen : ∀ p : PyStr, pyLower p = actTag → p.length = 7 := by
    intro p hp
    have := congrArg List.length hp
    simpa [pyLower_length] using this
  have hrlen : ∀ p : PyStr, pyLower p = riskTag → p.length = 5 := by
    intro p hp
    have := congrArg List.length hp
    simpa [pyLower_length] using this
  refine ⟨⟨?_, ?_⟩, ⟨?_, ?_⟩, ⟨?_, ?_⟩⟩
  · intro p r hsplit hp
    have hm : pyStartsWith decTag (pyLower (pyStripWs line)) = true :=
      (tag_match_iff decTag (pyStripWs line)).2 ⟨p, r, hsplit, hp⟩
    unfold lineDec
    rw [if_pos hm, hsplit]
    have : (p ++ r).drop 9 = r := by
      rw [← hdlen p hp]
      exact List.drop_left p r
    rw [this]
  · intro hne
    unfold lineDec at hne
    by_cases hm : pyStartsWith decTag (pyLower (pyStripWs line)) = true
    · exact (tag_match_iff decTag (pyStripWs line)).1 hm
    · rw [if_neg hm] at hne
      exact absurd rfl hne
  · intro p r hsplit hp
    have hmA : pyStartsWith actTag (pyLower (pyStripWs line)) = true :=
      (tag_match_iff actTag (pyStripWs line)).2 ⟨p, r, hsplit, hp⟩
    have hmD : pyStartsWith decTag (pyLower (pyStripWs line)) = false := by
      by_contra hcon
      have hd : pyStartsWith decTag (pyLower (pyStripWs line)) = true := by
        simpa using hcon
      rw [hdecTag] at hd
      have h1 := head_of_pyStartsWith _ _ _ hd
      have h2 := head_of_parts 'a' "ction:".toList p r (pyStripWs line) hsplit (hactTag ▸ hp)
      rw [h1] at h2
      simp at h2
    unfold lineAct
    rw [if_neg (by simp [hmD]), if_pos hmA, hsplit]
    have : (p ++ r).drop 7 = r := by
      rw [← halen p hp]
      exact List.drop_left p r
    rw [this]
  · intro hne
    unfold lineAct at hne
    by_cases hmD : pyStartsWith decTag (pyLower (pyStripWs line)) = true
    · rw [if_pos hmD] at hne
      exact absurd rfl hne
    · rw [if_neg hmD] at hne
      by_cases hmA : pyStartsWith actTag (pyLower (pyStripWs line)) = true
      · exact (tag_match_iff actTag (pyStripWs line)).1 hmA
      · rw [if_neg hmA] at hne
        exact absurd rfl hne
  · intro p r hsplit hp
    have hmR : pyStartsWith riskTag (pyLower (pyStripWs line)) = true :=
      (tag_match_iff riskTag (pyStripWs line)).2 ⟨p, r, hsplit, hp⟩
    have h2 := head_of_parts 'r' "isk:".toList p r (pyStripWs line) hsplit (hriskTag ▸ hp)
    have hmD : pyStartsWith decTag (pyLower (pyStripWs line)) = false := by
      by_contra hcon
      have hd : pyStartsWith decTag (pyLower (pyStripWs line)) = true := by simpa using hcon
      rw [hdecTag] at hd
      have h1 := head_of_pyStartsWith _ _ _ hd
      rw [h1] at h2
      simp at h2
    have hmA : pyStartsWith actTag (pyLower (pyStripWs line)) = false := by
      by_contra hcon
      have ha : pyStartsWith actTag (pyLower (pyStripWs line)) = true := by simpa using hcon
      rw [hactTag] at ha
      have h1 := head_of_pyStartsWith _ _ _ ha
      rw [h1] at h2
      simp at h2
    unfold lineRisk
    rw [if_neg (by simp [hmD]), if_neg (by simp [hmA]), if_pos hmR, hsplit]
    have : (p ++ r).drop 5 = r := by
      rw [← hrlen p hp]
      exact List.drop_left p r
    rw [this]
  · intro hne
    unfold lineRisk at hne
    by_cases hmD : pyStartsWith decTag (pyLower (pyStripWs line)) = true
    · rw [if_pos hmD] at hne
      exact absurd rfl hne
    · rw [if_neg hmD] at hne
      by_cases hmA : pyStartsWith actTag (pyLower (pyStripWs line)) = true
      · rw [if_pos hmA] at hne
        exact absurd rfl hne
      · rw [if_neg hmA] at hne
        by_cases hmR : pyStartsWith riskTag (pyLower (pyStripWs line)) = true
        · exact (tag_match_iff riskTag (pyStripWs line)).1 hmR
        · rw [if_neg hmR] at hne
          exact absurd rfl hne

/-- Witness for C1 at a concrete line. -/
theorem spec_c1_owner_acceptance_witness :
    lineOwners "Alice will review the code".toList =
      (willCandidates (pySplitWs (pyStripWs "Alice will review the code".toList))).filter
        isLikelyPersonName ∧
    (isLikelyPersonName "Alice".toList = true ↔ specPersonName "Alice".toList) :=
  ⟨(spec_c1_owner_acceptance "Alice will review the code".toList).1,
   (spec_c1_owner_acceptance "Alice will review the code".toList).2 "Alice".toList⟩

/-- Witness for C7 at a concrete uppercase-tag line. -/
theorem spec_c7_tag_prefixes_witness :
    lineDec "DECISION: Ship it".toList = ["Ship it".toList] :=
  ((spec_c7_tag_prefixes "DECISION: Ship it".toList).1.1
      "DECISION:".toList " Ship it".toList (by decide) (by decide)).trans (by decide)

/-- C5 counterexample: Python's `strip('.,!?;:')` removes the punctuation
from BOTH ends of the candidate, not only the trailing end.  On the line
",Alice will go" the token before "will" is ",Alice"; trailing-only
stripping would leave ",Alice", which the acceptance rule rejects, yet
the code strips the leading comma too and accepts "Alice" as an owner. -/
theorem spec_c5_trailing_only_counterexample :
    lineOwners ",Alice will go".toList = ["Alice".toList] ∧
    specStripTrailing puncts ",Alice".toList = ",Alice".toList ∧
    isLikelyPersonName (specStripTrailing puncts ",Alice".toList) = false ∧
    pyStripChars puncts ",Alice".toList ≠ specStripTrailing puncts ",Alice".toList := by
  decide

/-- C5 amended: for every matched occurrence of "will" with a preceding
token, the candidate passed to the acceptance rule is the preceding token
with the punctuation characters `. , ! ? ; :` stripped from both the
leading and the trailing end. -/
theorem spec_c5_strip_both_ends (prev w : PyStr) (rest : List PyStr)
    (hw : pyLower w = willStr) :
    ownerScan (prev :: w :: rest) =
      (if isLikelyPersonName (specStripTrailing puncts (specStripLeading puncts prev)) then
         [specStripTrailing puncts (specStripLeading puncts prev)]
       else []) ++ ownerScan (w :: rest) := by
  have hstrip : pyStripChars puncts prev =
      specStripTrailing puncts (specStripLeading puncts prev) := rfl
  show (if pyLower w = willStr then _ else []) ++ ownerScan (w :: rest) = _
  rw [if_pos hw, hstrip]

/-- Witness for C5 amended: the candidate ",Alice" is stripped at both
ends and accepted; the spec's own positive example "Alice, will you
confirm?" also yields owner "Alice". -/
theorem spec_c5_strip_both_ends_witness :
    ownerScan [",Alice".toList, "will".toList] = ["Alice".toList] ∧
    lineOwners "Alice, will you confirm?".toList = ["Alice".toList] :=
  ⟨(spec_c5_strip_both_ends ",Alice".toList "will".toList [] (by decide)).trans (by decide),
   by decide⟩

/-- C10 counterexample: a line whose FIRST token is "will" can still
contribute owners from a later "will" occurrence, so such a line does not
always contribute nothing: "will Alice will go" has first token "will"
yet contributes owner "Alice". -/
theorem spec_c10_leading_will_counterexample :
    (pySplitWs (pyStripWs "will Alice will go".toList)).head? = some "will".toList ∧
    lineOwners "will Alice will go".toList = ["Alice".toList] := by
  decide

/-- C10 amended: an occurrence of "will" at token index 0 has no preceding
token and is skipped, so a line whose first token is "will" (any casing)
and which contains no OTHER "will" token contributes nothing to the
owners sequence. -/
theorem spec_c10_leading_will_skipped (line w : PyStr) (rest : List PyStr)
    (h1 : pySplitWs (pyStripWs line) = w :: rest)
    (h2 : pyLower w = willStr)
    (h3 : ∀ v ∈ rest, pyLower v ≠ willStr) :
    lineOwners line = [] := by
  rw [lineOwners_eq_ownerScan, h1]
  exact ownerScan_eq_nil w rest h3

/-- Witness for C10 amended: "Will everyone attend" starts with a "will"
token (uppercase casing), has no other "will" token, and yields no owner. -/
theorem spec_c10_leading_will_skipped_witness :
    lineOwners "Will everyone attend".toList = [] :=
  spec_c10_leading_will_skipped "Will everyone attend".toList "Will".toList
    ["everyone".toList, "attend".toList] (by decide) (by decide) (by decide)
